import Mathlib

/-!
Verification of the Shannon-Fano coding implementation (shannon_fano.py).

Shallow embedding conventions:
* a text is a `List Char`;
* a symbol (single character or character pair) is a `List Char` (`Sym`);
* a code is a `List Bool` (the implementation renders bits as the
  characters "0"/"1"; `false` stands for "0" and `true` for "1");
* frequency, probability and code tables are association lists kept in
  insertion order, matching Python dict semantics;
* Python floats are modelled exactly: probabilities as `ℚ`,
  entropy/logarithms as `ℝ`.
-/

namespace ShannonFano

abbrev Sym := List Char

/-- The sentinel space character used to pad an odd-length text in pair
mode (`self.text[-1] + ' '` in the source). -/
def spaceChar : Char := Char.ofNat 32

/-- The consecutive non-overlapping two-character windows of a text:
the loop `for i in range(0, len(self.text) - 1, 2)` collecting
`self.text[i:i+2]`. A trailing unpaired character is not included here. -/
def evenPairs : List Char → List Sym
  | a :: b :: rest => [a, b] :: evenPairs rest
  | _ => []

/-- The full list of pair symbols of a text: the two-character windows,
followed by the padded pair `text[-1] + ' '` when the length is odd
(`calculate_frequencies`, pair branch; the encoding loop of
`encode_text` partitions the text identically). -/
def pairs_list (text : List Char) : List Sym :=
  evenPairs text ++
    (if text.length % 2 = 1 then [[text.getLastD spaceChar, spaceChar]] else [])

/-- The sequence of symbols a text is partitioned into, in text order:
single characters, or disjoint pairs in pair mode. -/
def symbolize (text : List Char) (pairs : Bool) : List Sym :=
  if pairs then pairs_list text else text.map (fun c => [c])

/-- Keys of a `collections.Counter` in insertion order: the distinct
elements of the list, keyed by first occurrence. -/
def firstOccs : List Sym → List Sym
  | [] => []
  | a :: l => a :: (firstOccs l).filter (fun b => decide (b ≠ a))

/-- Model of `dict(Counter(l))`: each distinct element with its number of
occurrences, keys in first-occurrence order. -/
def counter (l : List Sym) : List (Sym × ℕ) :=
  (firstOccs l).map (fun s => (s, l.count s))

/-- Model of `ShannonFanoEncoder.calculate_frequencies`: frequency table of the
symbols of the text (single characters, or disjoint pairs with the
odd-length space padding). -/
def calculate_frequencies (text : List Char) (pairs : Bool) : List (Sym × ℕ) :=
  counter (symbolize text pairs)

/-- Model of `ShannonFanoEncoder.calculate_probabilities`: each frequency divided
by the total count (`{char: freq / total ...}`). -/
def calculate_probabilities (freqs : List (Sym × ℕ)) : List (Sym × ℚ) :=
  let total : ℚ := ((freqs.map Prod.snd).sum : ℕ)
  freqs.map (fun p => (p.1, (p.2 : ℚ) / total))

/-- Model of `ShannonFanoEncoder.calculate_entropy`:
`-sum(p * log2(p) for p in probabilities if p > 0)`. -/
noncomputable def calculate_entropy (probs : List (Sym × ℚ)) : ℝ :=
  -(((probs.filter (fun p => decide ((0 : ℚ) < p.2))).map
      (fun p => (p.2 : ℝ) * Real.logb 2 (p.2 : ℝ))).sum)

/-- Model of `ShannonFanoEncoder.calculate_uniform_code_length`:
`math.ceil(math.log2(alphabet_size)) if alphabet_size > 1 else 1`.
`Nat.clog 2 n` is the ceiling of the base-2 logarithm of `n`. -/
def calculate_uniform_code_length (freqs : List (Sym × ℕ)) : ℕ :=
  if 1 < freqs.length then Nat.clog 2 freqs.length else 1

/-- Model of `total_prob = sum(item[1] for item in items)`. -/
def total_prob (items : List (Sym × ℚ)) : ℚ := (items.map Prod.snd).sum

/-- The quantity minimised by the split-point scan of `divide_and_code`:
`abs(left_prob - right_prob)` where `left_prob = sum(items[:i])` and
`right_prob = total_prob - left_prob`. -/
def splitDiff (items : List (Sym × ℚ)) (i : ℕ) : ℚ :=
  |total_prob (items.take i) - (total_prob items - total_prob (items.take i))|

/-- The split point chosen by `divide_and_code`: the loop
`for i in range(1, len(items))` keeping the first index whose difference
is strictly smaller than the best seen so far (`best_split` starts at 1). -/
def bestSplit (items : List (Sym × ℚ)) : ℕ :=
  (List.range' 1 (items.length - 1)).foldl
    (fun best i => if splitDiff items i < splitDiff items best then i else best) 1

/-- Model of the inner `divide_and_code` of `shannon_fano_coding`: on at most one item,
assign the accumulated bit string (or the single bit "0" when it is
empty); otherwise split at `bestSplit` and recurse, appending "0" on the
left and "1" on the right.  Assignments are collected left to right,
matching the insertion order of the `self.codes` dict. -/
def divide_and_code : List (Sym × ℚ) → List Bool → List (Sym × List Bool)
  | [], _ => []
  | [item], pre => [(item.1, if pre = [] then [false] else pre)]
  | a :: b :: rest, pre =>
    divide_and_code ((a :: b :: rest).take (bestSplit (a :: b :: rest))) (pre ++ [false]) ++
    divide_and_code ((a :: b :: rest).drop (bestSplit (a :: b :: rest))) (pre ++ [true])
termination_by items _ => items.length
decreasing_by
  all_goals
    have key : ∀ (l : List ℕ) (b0 : ℕ), 1 ≤ b0 → b0 < (a :: b :: rest).length →
        (∀ x ∈ l, 1 ≤ x ∧ x < (a :: b :: rest).length) →
        1 ≤ l.foldl (fun best i =>
              if splitDiff (a :: b :: rest) i < splitDiff (a :: b :: rest) best
              then i else best) b0 ∧
        l.foldl (fun best i =>
              if splitDiff (a :: b :: rest) i < splitDiff (a :: b :: rest) best
              then i else best) b0 < (a :: b :: rest).length := by
      intro l
      induction l with
      | nil => intro b0 h1 h2 _; exact ⟨h1, h2⟩
      | cons i t ih =>
        intro b0 h1 h2 h3
        have hi := h3 i (List.mem_cons_self i t)
        have ht : ∀ x ∈ t, 1 ≤ x ∧ x < (a :: b :: rest).length :=
          fun x hx => h3 x (List.mem_cons_of_mem i hx)
        by_cases hc : splitDiff (a :: b :: rest) i < splitDiff (a :: b :: rest) b0
        · simpa only [List.foldl_cons, hc, if_true] using ih i hi.1 hi.2 ht
        · simpa only [List.foldl_cons, hc, if_false] using ih b0 h1 h2 ht
  all_goals
    have hb : 1 ≤ bestSplit (a :: b :: rest) ∧
        bestSplit (a :: b :: rest) < (a :: b :: rest).length := by
      unfold bestSplit
      apply key
      · omega
      · simp only [List.length_cons]; omega
      · intro x hx
        have := List.mem_range'_1.mp hx
        simp only [List.length_cons] at *
        omega
  · simp only [List.length_take, List.length_cons] at *
    omega
  · simp only [List.length_drop, List.length_cons] at *
    omega

/-- One step of the stable descending insertion sort: insert after every
earlier item of greater-or-equal probability. -/
def insertDesc (x : Sym × ℚ) : List (Sym × ℚ) → List (Sym × ℚ)
  | [] => [x]
  | y :: ys => if y.2 ≤ x.2 then x :: y :: ys else y :: insertDesc x ys

/-- Model of `sorted(self.probabilities.items(), key=lambda x: x[1], reverse=True)`:
Python sort is stable, so this is the unique permutation that is
descending in probability and keeps items of equal probability in their
original insertion order; stable insertion sort computes exactly it. -/
def sortDesc : List (Sym × ℚ) → List (Sym × ℚ)
  | [] => []
  | x :: xs => insertDesc x (sortDesc xs)

/-- Model of `ShannonFanoEncoder.shannon_fano_coding`: sort the probability table
by descending probability (stable) and run the recursive division. -/
def shannon_fano_coding (probs : List (Sym × ℚ)) : List (Sym × List Bool) :=
  divide_and_code (sortDesc probs) []

/-- Dict lookup `self.codes[s]` guarded by `s in self.codes`. -/
def lookupCode (codes : List (Sym × List Bool)) (s : Sym) : Option (List Bool) :=
  (codes.find? (fun p => decide (p.1 = s))).map Prod.snd

/-- Model of `ShannonFanoEncoder.encode_text`: empty code table encodes to the
empty string; otherwise the mode is detected from the length of the
first code-table key, the text is partitioned accordingly, and the codes
of the symbols found in the table are concatenated in text order
(symbols missing from the table are skipped silently). -/
def encode_text (codes : List (Sym × List Bool)) (text : List Char) : List Bool :=
  match codes with
  | [] => []
  | c0 :: cs =>
    if c0.1.length = 2 then
      (pairs_list text).foldl (fun acc pair =>
        match lookupCode (c0 :: cs) pair with
        | some c => acc ++ c
        | none => acc) []
    else
      text.foldl (fun acc ch =>
        match lookupCode (c0 :: cs) [ch] with
        | some c => acc ++ c
        | none => acc) []

/-- The reverse code dictionary
`{code: char for char, code in self.codes.items()}`: on duplicate codes
the later entry wins, hence the lookup scans the reversed table. -/
def reverse_lookup (codes : List (Sym × List Bool)) (c : List Bool) : Option Sym :=
  (codes.reverse.find? (fun p => decide (p.2 = c))).map Prod.fst

/-- The body of the `if current_code in reverse_codes` branch of
`decode_text`: append the decoded symbol, except that a two-character
symbol ending in the sentinel space is stripped to its first character
when the original text length is odd and the output so far is exactly
one character short of it. -/
def emitSym (textLen : ℕ) (decoded : List Char) (p : Sym) : List Char :=
  if p.length = 2 ∧ p.getLast? = some spaceChar ∧ textLen % 2 = 1 ∧
      decoded.length = textLen - 1
  then decoded ++ p.take 1
  else decoded ++ p

/-- One iteration of the bit loop of `decode_text`: extend the candidate
buffer by the next bit; on a reverse-dictionary hit emit the symbol and
clear the buffer, otherwise keep accumulating. -/
def decode_step (codes : List (Sym × List Bool)) (textLen : ℕ)
    (st : List Char × List Bool) (bit : Bool) : List Char × List Bool :=
  match reverse_lookup codes (st.2 ++ [bit]) with
  | some p => (emitSym textLen st.1 p, [])
  | none => (st.1, st.2 ++ [bit])

/-- Model of `ShannonFanoEncoder.decode_text`: empty output on an empty code
table or empty bitstream; otherwise run the bit loop from an empty
buffer and return the decoded text, discarding whatever is left in the
buffer.  `textLen` is `len(self.text)`, the original text length the
decoder consults for pad stripping. -/
def decode_text (codes : List (Sym × List Bool)) (textLen : ℕ)
    (encoded : List Bool) : List Char :=
  if codes = [] ∨ encoded = [] then []
  else (encoded.foldl (decode_step codes textLen) ([], [])).1

/-- The full code-construction pipeline of `analyze_text`: frequencies
of the text in the given mode, then probabilities, then Shannon-Fano
codes (`build_code` in the specification). -/
def build_code (text : List Char) (pairs : Bool) : List (Sym × List Bool) :=
  shannon_fano_coding (calculate_probabilities (calculate_frequencies text pairs))

/-! ### Properties of the split-point scan -/

theorem argmin_foldl_spec (items : List (Sym × ℚ)) :
    ∀ (l : List ℕ) (b0 : ℕ), (∀ x ∈ l, b0 ≤ x) → l.Pairwise (· ≤ ·) →
      let r := l.foldl (fun best i =>
        if splitDiff items i < splitDiff items best then i else best) b0
      (r = b0 ∨ r ∈ l) ∧ splitDiff items r ≤ splitDiff items b0 ∧
        (∀ x ∈ l, splitDiff items r ≤ splitDiff items x) ∧
        (b0 < r → splitDiff items r < splitDiff items b0) ∧
        (∀ x ∈ l, x < r → splitDiff items r < splitDiff items x) := by
  intro l
  induction l with
  | nil =>
    intro b0 _ _
    refine ⟨Or.inl rfl, le_refl _, by simp, ?_, by simp⟩
    intro hlt
    simp only [List.foldl_nil] at hlt
    exact absurd hlt (lt_irrefl b0)
  | cons i t ih =>
    intro b0 hble hpw
    by_cases hc : splitDiff items i < splitDiff items b0
    · have hit : ∀ x ∈ t, i ≤ x := fun x hx => (List.pairwise_cons.mp hpw).1 x hx
      have spec := ih i hit (List.pairwise_cons.mp hpw).2
      simp only [List.foldl_cons, hc, if_true]
      obtain ⟨m, h1, h2, h3, h4⟩ := spec
      refine ⟨?_, ?_, ?_, ?_, ?_⟩
      · rcases m with hm | hm
        · right; rw [hm]; exact List.mem_cons_self i t
        · exact Or.inr (List.mem_cons_of_mem i hm)
      · exact le_of_lt (lt_of_le_of_lt h1 hc)
      · intro x hx
        rcases List.mem_cons.mp hx with hx1 | hx1
        · subst hx1; exact h1
        · exact h2 x hx1
      · intro _
        exact lt_of_le_of_lt h1 hc
      · intro x hx hxr
        rcases List.mem_cons.mp hx with hx1 | hx1
        · subst hx1; exact h3 hxr
        · exact h4 x hx1 hxr
    · have hbt : ∀ x ∈ t, b0 ≤ x := fun x hx => hble x (List.mem_cons_of_mem i hx)
      have spec := ih b0 hbt (List.pairwise_cons.mp hpw).2
      simp only [List.foldl_cons, hc, if_false]
      obtain ⟨m, h1, h2, h3, h4⟩ := spec
      refine ⟨?_, h1, ?_, h3, ?_⟩
      · rcases m with hm | hm
        · exact Or.inl hm
        · exact Or.inr (List.mem_cons_of_mem i hm)
      · intro x hx
        rcases List.mem_cons.mp hx with hx1 | hx1
        · subst hx1; exact le_trans h1 (not_lt.mp hc)
        · exact h2 x hx1
      · intro x hx hxr
        rcases List.mem_cons.mp hx with hx1 | hx1
        · subst hx1
          have hbi := hble x (List.mem_cons_self x t)
          exact lt_of_lt_of_le (h3 (lt_of_le_of_lt hbi hxr)) (not_lt.mp hc)
        · exact h4 x hx1 hxr

theorem range'_pairwise_le (s : ℕ) : ∀ n : ℕ, (List.range' s n).Pairwise (· ≤ ·) := by
  have key : ∀ (n s : ℕ), (List.range' s n).Pairwise (· ≤ ·) := by
    intro n
    induction n with
    | zero => intro s; simp
    | succ m ih =>
      intro s
      rw [List.range'_succ]
      refine List.pairwise_cons.mpr ⟨?_, ih (s + 1)⟩
      intro x hx
      have := (List.mem_range'_1.mp hx).1
      omega
  exact fun n => key n s

theorem bestSplit_spec (items : List (Sym × ℚ)) (h : 2 ≤ items.length) :
    (1 ≤ bestSplit items ∧ bestSplit items < items.length) ∧
      (∀ j, 1 ≤ j → j < items.length →
        splitDiff items (bestSplit items) ≤ splitDiff items j) ∧
      (∀ j, 1 ≤ j → j < bestSplit items →
        splitDiff items (bestSplit items) < splitDiff items j) := by
  have hmem : ∀ x ∈ List.range' 1 (items.length - 1), 1 ≤ x ∧ x < items.length := by
    intro x hx
    have := List.mem_range'_1.mp hx
    omega
  have spec := argmin_foldl_spec items (List.range' 1 (items.length - 1)) 1
    (fun x hx => (hmem x hx).1) (range'_pairwise_le 1 (items.length - 1))
  obtain ⟨hm, _, hmin, _, hleast⟩ := spec
  have hbnd : 1 ≤ bestSplit items ∧ bestSplit items < items.length := by
    unfold bestSplit
    rcases hm with hm | hm
    · rw [hm]; omega
    · exact hmem _ hm
  refine ⟨hbnd, ?_, ?_⟩
  · intro j hj1 hj2
    exact hmin j (List.mem_range'_1.mpr ⟨hj1, by omega⟩)
  · intro j hj1 hj2
    exact hleast j (List.mem_range'_1.mpr ⟨hj1, by omega⟩) hj2

theorem bestSplit_ge_one (items : List (Sym × ℚ)) (h : 2 ≤ items.length) :
    1 ≤ bestSplit items := ((bestSplit_spec items h).1).1

theorem bestSplit_lt_length (items : List (Sym × ℚ)) (h : 2 ≤ items.length) :
    bestSplit items < items.length := ((bestSplit_spec items h).1).2

/-! ### Structure of the code assignments produced by `divide_and_code` -/

theorem dac_pre_ne : ∀ (items : List (Sym × ℚ)) (pre : List Bool),
    ∀ p ∈ divide_and_code items pre, pre <+: p.2 ∧ p.2 ≠ [] := by
  intro items pre
  induction items, pre using divide_and_code.induct with
  | case1 pre => intro p hp; simp [divide_and_code] at hp
  | case2 item pre =>
    intro p hp
    simp [divide_and_code] at hp
    subst hp
    by_cases hpre : pre = []
    · subst hpre
      exact ⟨List.nil_prefix, by simp⟩
    · simp [hpre]
  | case3 a b rest pre ih1 ih2 =>
    intro p hp
    rw [divide_and_code] at hp
    rcases List.mem_append.mp hp with h | h
    · have := ih1 p h
      exact ⟨(List.prefix_append pre [false]).trans this.1, this.2⟩
    · have := ih2 p h
      exact ⟨(List.prefix_append pre [true]).trans this.1, this.2⟩

theorem dac_keys : ∀ (items : List (Sym × ℚ)) (pre : List Bool),
    (divide_and_code items pre).map Prod.fst = items.map Prod.fst := by
  intro items pre
  induction items, pre using divide_and_code.induct with
  | case1 pre => simp [divide_and_code]
  | case2 item pre => simp [divide_and_code]
  | case3 a b rest pre ih1 ih2 =>
    rw [divide_and_code, List.map_append, ih1, ih2, ← List.map_append,
      List.take_append_drop]

theorem prefix_antisym_aux {l1 l2 c : List Bool} (h1 : l1 <+: c) (h2 : l2 <+: c)
    (hlen : l1.length = l2.length) : l1 = l2 := by
  rcases le_or_lt l1.length l2.length with h | h
  · exact (List.prefix_of_prefix_length_le h1 h2 h).eq_of_length hlen
  · omega

theorem dac_antichain : ∀ (items : List (Sym × ℚ)) (pre : List Bool),
    (divide_and_code items pre).Pairwise (fun p q => ¬ p.2 <+: q.2 ∧ ¬ q.2 <+: p.2) := by
  intro items pre
  induction items, pre using divide_and_code.induct with
  | case1 pre => simp [divide_and_code]
  | case2 item pre => simp [divide_and_code]
  | case3 a b rest pre ih1 ih2 =>
    rw [divide_and_code]
    rw [List.pairwise_append]
    refine ⟨ih1, ih2, ?_⟩
    intro p hp q hq
    have hL := dac_pre_ne _ _ p hp
    have hR := dac_pre_ne _ _ q hq
    constructor
    · intro hpq
      have h1 : pre ++ [false] <+: q.2 := hL.1.trans hpq
      have := prefix_antisym_aux h1 hR.1 (by simp)
      simp at this
    · intro hqp
      have h1 : pre ++ [true] <+: p.2 := hR.1.trans hqp
      have := prefix_antisym_aux h1 hL.1 (by simp)
      simp at this

/-! ### The stable descending sort -/


theorem insertDesc_perm (x : Sym × ℚ) :
    ∀ l : List (Sym × ℚ), List.Perm (insertDesc x l) (x :: l) := by
  intro l
  induction l with
  | nil => simp [insertDesc]
  | cons y ys ih =>
    rw [insertDesc]
    split
    · exact List.Perm.refl _
    · exact (List.Perm.cons y ih).trans (List.Perm.swap x y ys)

theorem sortDesc_perm : ∀ l : List (Sym × ℚ), List.Perm (sortDesc l) l := by
  intro l
  induction l with
  | nil => simp [sortDesc]
  | cons x xs ih =>
    rw [sortDesc]
    exact (insertDesc_perm x (sortDesc xs)).trans (List.Perm.cons x ih)

theorem insertDesc_mem (x y : Sym × ℚ) (l : List (Sym × ℚ)) :
    y ∈ insertDesc x l ↔ y = x ∨ y ∈ l := by
  rw [(insertDesc_perm x l).mem_iff, List.mem_cons]

theorem insertDesc_sorted (x : Sym × ℚ) :
    ∀ l : List (Sym × ℚ), l.Pairwise (fun p q => q.2 ≤ p.2) →
      (insertDesc x l).Pairwise (fun p q => q.2 ≤ p.2) := by
  intro l
  induction l with
  | nil => intro _; simp [insertDesc]
  | cons y ys ih =>
    intro hpw
    rw [insertDesc]
    rcases List.pairwise_cons.mp hpw with ⟨hy, hys⟩
    split
    · rename_i hle
      refine List.pairwise_cons.mpr ⟨?_, hpw⟩
      intro z hz
      rcases List.mem_cons.mp hz with hz1 | hz1
      · subst hz1; exact hle
      · exact le_trans (hy z hz1) hle
    · rename_i hlt
      refine List.pairwise_cons.mpr ⟨?_, ih hys⟩
      intro z hz
      rcases (insertDesc_mem x z ys).mp hz with hz1 | hz1
      · subst hz1; exact (not_le.mp hlt).le
      · exact hy z hz1

theorem sortDesc_sorted : ∀ l : List (Sym × ℚ),
    (sortDesc l).Pairwise (fun p q => q.2 ≤ p.2) := by
  intro l
  induction l with
  | nil => simp [sortDesc]
  | cons x xs ih => exact insertDesc_sorted x (sortDesc xs) ih

theorem insertDesc_filter (x : Sym × ℚ) (v : ℚ) :
    ∀ l : List (Sym × ℚ),
      (insertDesc x l).filter (fun p => decide (p.2 = v)) =
        if x.2 = v then x :: l.filter (fun p => decide (p.2 = v))
        else l.filter (fun p => decide (p.2 = v)) := by
  intro l
  induction l with
  | nil =>
    rw [insertDesc]
    by_cases hx : x.2 = v <;> simp [hx]
  | cons y ys ih =>
    rw [insertDesc]
    split
    · by_cases hx : x.2 = v <;> simp [List.filter_cons, hx]
    · rename_i hlt
      have hxv : x.2 ≠ v ∨ y.2 ≠ v := by
        by_cases hx : x.2 = v
        · right
          intro hy
          exact hlt (le_of_eq (hy.trans hx.symm))
        · left; exact hx
      rw [List.filter_cons, List.filter_cons, ih]
      by_cases hy : y.2 = v
      · rcases hxv with hx | hx
        · simp [hx, hy]
        · exact absurd hy hx
      · by_cases hx : x.2 = v <;> simp [hx, hy]

theorem sortDesc_filter (v : ℚ) : ∀ l : List (Sym × ℚ),
    (sortDesc l).filter (fun p => decide (p.2 = v)) =
      l.filter (fun p => decide (p.2 = v)) := by
  intro l
  induction l with
  | nil => rfl
  | cons x xs ih =>
    rw [sortDesc, insertDesc_filter, List.filter_cons]
    by_cases hx : x.2 = v <;> simp [hx, ih]

/-! ### Table lookups -/


theorem find?_unique {α : Type} (f : α → Bool) :
    ∀ (l : List α) (x : α), x ∈ l → f x = true → (∀ y ∈ l, f y = true → y = x) →
      l.find? f = some x := by
  intro l
  induction l with
  | nil => intro x hx; intro _ _; simp at hx
  | cons a t ih =>
    intro x hx hfx huniq
    by_cases ha : f a = true
    · rw [List.find?_cons_of_pos _ ha]
      exact congrArg some (huniq a (List.mem_cons_self a t) ha)
    · rw [List.find?_cons_of_neg _ (by simp [ha])]
      have hxt : x ∈ t := by
        rcases List.mem_cons.mp hx with h1 | h1
        · subst h1; exact absurd hfx ha
        · exact h1
      exact ih x hxt hfx (fun y hy hfy => huniq y (List.mem_cons_of_mem a hy) hfy)

theorem antichain_symm :
    Symmetric (fun p q : Sym × List Bool => ¬ p.2 <+: q.2 ∧ ¬ q.2 <+: p.2) :=
  fun _ _ h => ⟨h.2, h.1⟩

theorem reverse_lookup_eq_some {ct : List (Sym × List Bool)}
    (hpw : ct.Pairwise (fun p q => ¬ p.2 <+: q.2 ∧ ¬ q.2 <+: p.2))
    {s : Sym} {c : List Bool} (hmem : (s, c) ∈ ct) :
    reverse_lookup ct c = some s := by
  unfold reverse_lookup
  have huniq : ∀ y ∈ ct.reverse, (fun p : Sym × List Bool => decide (p.2 = c)) y = true →
      y = (s, c) := by
    intro y hy hdec
    have hyc : y.2 = c := of_decide_eq_true hdec
    by_contra hne
    have := (hpw.forall antichain_symm) (List.mem_reverse.mp hy) hmem hne
    exact this.1 (by rw [hyc])
  rw [find?_unique _ ct.reverse (s, c) (List.mem_reverse.mpr hmem) (by simp) huniq]
  rfl

theorem reverse_lookup_mem {ct : List (Sym × List Bool)} {c : List Bool} {s : Sym}
    (h : reverse_lookup ct c = some s) : (s, c) ∈ ct := by
  unfold reverse_lookup at h
  cases hf : ct.reverse.find? (fun p => decide (p.2 = c)) with
  | none => rw [hf] at h; simp at h
  | some p =>
    rw [hf] at h
    obtain ⟨ps, pc⟩ := p
    have hmem := List.mem_reverse.mp (List.mem_of_find?_eq_some hf)
    have hpc : pc = c := by have h2 := List.find?_some hf; simpa using h2
    have hps : ps = s := by simpa using h
    subst hpc
    subst hps
    exact hmem

theorem lookupCode_mem {ct : List (Sym × List Bool)} {s : Sym} {c : List Bool}
    (h : lookupCode ct s = some c) : (s, c) ∈ ct := by
  unfold lookupCode at h
  cases hf : ct.find? (fun p => decide (p.1 = s)) with
  | none => rw [hf] at h; simp at h
  | some p =>
    rw [hf] at h
    obtain ⟨ps, pc⟩ := p
    have hmem := List.mem_of_find?_eq_some hf
    have hps : ps = s := by have h2 := List.find?_some hf; simpa using h2
    have hpc : pc = c := by simpa using h
    subst hps
    subst hpc
    exact hmem

theorem lookupCode_isSome {ct : List (Sym × List Bool)} {s : Sym}
    (h : s ∈ ct.map Prod.fst) : ∃ c, lookupCode ct s = some c := by
  obtain ⟨p, hp, hps⟩ := List.mem_map.mp h
  unfold lookupCode
  have hsome : (ct.find? (fun p => decide (p.1 = s))).isSome := by
    rw [List.find?_isSome]
    exact ⟨p, hp, by simp [hps]⟩
  cases hf : ct.find? (fun p => decide (p.1 = s)) with
  | none => rw [hf] at hsome; simp at hsome
  | some q => exact ⟨q.2, by simp [hf]⟩

theorem mem_firstOccs (a : Sym) : ∀ l : List Sym, a ∈ firstOccs l ↔ a ∈ l := by
  intro l
  induction l with
  | nil => simp [firstOccs]
  | cons b t ih =>
    rw [firstOccs]
    by_cases hab : a = b
    · subst hab
      simp
    · simp only [List.mem_cons, hab, false_or]
      rw [List.mem_filter]
      simp [hab, ih]

/-! ### The decoding state machine on a prefix-free table -/


theorem decode_run {ct : List (Sym × List Bool)}
    (hpw : ct.Pairwise (fun p q => ¬ p.2 <+: q.2 ∧ ¬ q.2 <+: p.2)) (n : ℕ) :
    ∀ (rem cur : List Bool) (s : Sym), (s, cur ++ rem) ∈ ct → rem ≠ [] →
      ∀ (bits : List Bool) (d : List Char),
        (rem ++ bits).foldl (decode_step ct n) (d, cur) =
          bits.foldl (decode_step ct n) (emitSym n d s, []) := by
  intro rem
  induction rem with
  | nil => intro _ _ _ hne; exact absurd rfl hne
  | cons b rem2 ih =>
    intro cur s hmem _ bits d
    rcases rem2 with _ | ⟨b2, rem3⟩
    · -- last bit of the code: the buffer completes a full code
      have hrl : reverse_lookup ct (cur ++ [b]) = some s :=
        reverse_lookup_eq_some hpw hmem
      simp only [List.cons_append, List.nil_append, List.foldl_cons]
      have hstep : decode_step ct n (d, cur) b = (emitSym n d s, []) := by
        simp [decode_step, hrl]
      rw [hstep]
    · -- the buffer is a proper pre-segment of the code: no table hit
      have hnone : reverse_lookup ct (cur ++ [b]) = none := by
        cases hrl : reverse_lookup ct (cur ++ [b]) with
        | none => rfl
        | some s2 =>
          exfalso
          have hmem2 := reverse_lookup_mem hrl
          have hne2 : (s2, cur ++ [b]) ≠ (s, cur ++ b :: b2 :: rem3) := by
            intro he
            have := congrArg (fun p : Sym × List Bool => p.2.length) he
            simp at this
          have hanti := (hpw.forall antichain_symm) hmem2 hmem hne2
          exact hanti.1 ⟨b2 :: rem3, by simp⟩
      simp only [List.cons_append, List.foldl_cons]
      have hstep : decode_step ct n (d, cur) b = (d, cur ++ [b]) := by
        simp [decode_step, hnone]
      rw [hstep]
      have := ih (cur ++ [b]) s (by simpa using hmem) (by simp) bits d
      simpa using this

theorem decode_join {ct : List (Sym × List Bool)}
    (hpw : ct.Pairwise (fun p q => ¬ p.2 <+: q.2 ∧ ¬ q.2 <+: p.2)) (n : ℕ)
    (cF : Sym → List Bool) :
    ∀ (syms : List Sym) (d : List Char),
      (∀ s ∈ syms, (s, cF s) ∈ ct ∧ cF s ≠ []) →
      ((syms.map cF).flatten).foldl (decode_step ct n) (d, []) =
        (syms.foldl (emitSym n) d, []) := by
  intro syms
  induction syms with
  | nil => intro d _; simp
  | cons s rest ih =>
    intro d h
    have hs := h s (List.mem_cons_self s rest)
    rw [List.map_cons, List.flatten_cons]
    have hrun := decode_run hpw n (cF s) [] s (by simpa using hs.1) hs.2
      ((rest.map cF).flatten) d
    rw [hrun]
    exact ih (emitSym n d s) (fun x hx => h x (List.mem_cons_of_mem s hx))

/-! ### Encoding as concatenation; text partitioning -/


theorem foldl_match_append {α : Type} (F : α → Option (List Bool)) :
    ∀ (l : List α) (acc : List Bool),
      l.foldl (fun a x => match F x with | some c => a ++ c | none => a) acc =
        acc ++ (l.map (fun x => (F x).getD [])).flatten := by
  intro l
  induction l with
  | nil => intro acc; simp
  | cons x t ih =>
    intro acc
    rw [List.foldl_cons, ih, List.map_cons, List.flatten_cons]
    cases hx : F x with
    | none => simp
    | some c => simp

theorem encode_text_flatten (c0 : Sym × List Bool) (cs : List (Sym × List Bool))
    (text : List Char) :
    encode_text (c0 :: cs) text =
      if c0.1.length = 2
      then ((pairs_list text).map
        (fun s => (lookupCode (c0 :: cs) s).getD [])).flatten
      else ((text.map (fun c => [c])).map
        (fun s => (lookupCode (c0 :: cs) s).getD [])).flatten := by
  rw [encode_text]
  split
  · rw [foldl_match_append (fun pair => lookupCode (c0 :: cs) pair) (pairs_list text) []]
    simp
  · rw [foldl_match_append (fun ch => lookupCode (c0 :: cs) [ch]) text []]
    rw [List.nil_append, List.map_map]
    rfl

theorem evenPairs_mem_length : ∀ (l : List Char), ∀ s ∈ evenPairs l, s.length = 2 := by
  intro l
  induction l using evenPairs.induct with
  | case1 a b rest ih =>
    intro s hs
    rw [evenPairs] at hs
    rcases List.mem_cons.mp hs with h1 | h1
    · subst h1; rfl
    · exact ih s h1
  | case2 l h =>
    intro s hs
    rw [evenPairs] at hs
    · simp at hs
    · exact h

theorem evenPairs_flatten : ∀ l : List Char,
    (evenPairs l).flatten = if l.length % 2 = 0 then l else l.dropLast := by
  intro l
  induction l using evenPairs.induct with
  | case1 a b rest ih =>
    rw [evenPairs, List.flatten_cons, ih]
    by_cases hr : rest.length % 2 = 0
    · have : (a :: b :: rest).length % 2 = 0 := by simp [Nat.add_mod, hr]
      simp only [hr, if_true, this]
      rfl
    · have h2 : ¬ (a :: b :: rest).length % 2 = 0 := by
        simp only [List.length_cons]
        omega
      simp only [hr, if_false, h2]
      have hne : rest ≠ [] := by
        intro he
        subst he
        simp at hr
      cases rest with
      | nil => exact absurd rfl hne
      | cons c t => rfl
  | case2 l h =>
    cases l with
    | nil => simp [evenPairs]
    | cons a t =>
      cases t with
      | nil => simp [evenPairs]
      | cons b t2 => exact absurd rfl (h a b t2)

theorem evenPairs_length : ∀ l : List Char, (evenPairs l).length = l.length / 2 := by
  intro l
  induction l using evenPairs.induct with
  | case1 a b rest ih =>
    rw [evenPairs, List.length_cons, ih]
    simp only [List.length_cons]
    omega
  | case2 l h =>
    cases l with
    | nil => simp [evenPairs]
    | cons a t =>
      cases t with
      | nil => simp [evenPairs]
      | cons b t2 => exact absurd rfl (h a b t2)

theorem symbolize_length (text : List Char) (m : Bool) :
    ∀ s ∈ symbolize text m, s.length = if m then 2 else 1 := by
  intro s hs
  cases m with
  | false =>
    simp only [symbolize, Bool.false_eq_true, if_false] at hs
    obtain ⟨c, _, hc⟩ := List.mem_map.mp hs
    subst hc
    rfl
  | true =>
    simp only [symbolize, if_true] at hs
    rw [pairs_list] at hs
    rcases List.mem_append.mp hs with h1 | h1
    · simp only [if_true]
      exact evenPairs_mem_length text s h1
    · simp only [if_true]
      split at h1
      · rcases List.mem_cons.mp h1 with h2 | h2
        · subst h2; rfl
        · simp at h2
      · simp at h1

theorem symbolize_ne_nil (text : List Char) (h : text ≠ []) (m : Bool) :
    symbolize text m ≠ [] := by
  cases m with
  | false =>
    simp only [symbolize, Bool.false_eq_true, if_false]
    simpa using h
  | true =>
    simp only [symbolize, if_true, pairs_list]
    cases text with
    | nil => exact absurd rfl h
    | cons a t =>
      cases t with
      | nil => simp
      | cons b t2 => simp [evenPairs]

theorem foldl_emit_single (n : ℕ) :
    ∀ (l : List Char) (d : List Char),
      (l.map (fun c => [c])).foldl (emitSym n) d = d ++ l := by
  intro l
  induction l with
  | nil => intro d; simp
  | cons c t ih =>
    intro d
    rw [List.map_cons, List.foldl_cons]
    have he : emitSym n d [c] = d ++ [c] := by
      rw [emitSym, if_neg]
      intro hco
      simp at hco
    rw [he, ih]
    simp

theorem emitSym_even (n : ℕ) (hn : n % 2 = 0) (d : List Char) (s : Sym) :
    emitSym n d s = d ++ s := by
  rw [emitSym, if_neg]
  intro hco
  rcases hco with ⟨_, _, h3, _⟩
  omega

theorem foldl_emit_even (n : ℕ) (hn : n % 2 = 0) :
    ∀ (syms : List Sym) (d : List Char),
      syms.foldl (emitSym n) d = d ++ syms.flatten := by
  intro syms
  induction syms with
  | nil => intro d; simp
  | cons s t ih =>
    intro d
    rw [List.foldl_cons, emitSym_even n hn, ih, List.flatten_cons]
    simp

theorem foldl_emit_pairs (n : ℕ) :
    ∀ (syms : List Sym) (d : List Char), (∀ s ∈ syms, s.length = 2) →
      d.length + 2 * syms.length ≤ n - 1 →
      syms.foldl (emitSym n) d = d ++ syms.flatten := by
  intro syms
  induction syms with
  | nil => intro d _ _; simp
  | cons s t ih =>
    intro d hlen hbound
    have hs2 : s.length = 2 := hlen s (List.mem_cons_self s t)
    have hne : d.length ≠ n - 1 := by
      simp only [List.length_cons] at hbound
      omega
    rw [List.foldl_cons]
    have he : emitSym n d s = d ++ s := by
      rw [emitSym, if_neg]
      intro hco
      exact hne hco.2.2.2
    rw [he, ih (d ++ s) (fun x hx => hlen x (List.mem_cons_of_mem s hx))
      (by simp only [List.length_append, List.length_cons] at *; omega),
      List.flatten_cons]
    simp

/-! ### Keys of the produced code table; claim C1 (round trip) -/


theorem probabilities_keys (freqs : List (Sym × ℕ)) :
    (calculate_probabilities freqs).map Prod.fst = freqs.map Prod.fst := by
  unfold calculate_probabilities
  rw [List.map_map]
  rfl

theorem counter_keys (l : List Sym) : (counter l).map Prod.fst = firstOccs l := by
  unfold counter
  rw [List.map_map]
  exact List.map_id _

theorem build_code_keys_mem (text : List Char) (m : Bool) (s : Sym) :
    s ∈ (build_code text m).map Prod.fst ↔ s ∈ symbolize text m := by
  have h1 : (build_code text m).map Prod.fst =
      (sortDesc (calculate_probabilities (calculate_frequencies text m))).map Prod.fst :=
    dac_keys _ []
  rw [h1]
  rw [((sortDesc_perm _).map Prod.fst).mem_iff]
  rw [probabilities_keys]
  unfold calculate_frequencies
  rw [counter_keys]
  exact mem_firstOccs s (symbolize text m)

theorem dropLast_getLastD (l : List Char) (h : l ≠ []) (x : Char) :
    l.dropLast ++ [l.getLastD x] = l := by
  have h1 : l.getLastD x = l.getLast h := by
    rw [List.getLastD_eq_getLast?, List.getLast?_eq_getLast l h]
    rfl
  rw [h1]
  exact List.dropLast_append_getLast h

/-- Claim C1 (Round-trip): for every non-empty text and each mode
(single-character, `m = false`, or pair, `m = true`), decoding the
encoding of the text with the code table built from the frequency table
of the text itself yields exactly the text
(`decode_text(encode_text()) == text`). -/
theorem round_trip (text : List Char) (h : text ≠ []) (m : Bool) :
    decode_text (build_code text m) text.length
      (encode_text (build_code text m) text) = text := by
  have hpw : (build_code text m).Pairwise
      (fun p q => ¬ p.2 <+: q.2 ∧ ¬ q.2 <+: p.2) := dac_antichain _ []
  have hmemkeys : ∀ s ∈ symbolize text m, s ∈ (build_code text m).map Prod.fst :=
    fun s hs => (build_code_keys_mem text m s).mpr hs
  have hcF : ∀ s ∈ symbolize text m,
      (s, (lookupCode (build_code text m) s).getD []) ∈ build_code text m ∧
        (lookupCode (build_code text m) s).getD [] ≠ [] := by
    intro s hs
    obtain ⟨c, hc⟩ := lookupCode_isSome (hmemkeys s hs)
    have hmem := lookupCode_mem hc
    rw [hc]
    exact ⟨hmem, (dac_pre_ne _ [] _ hmem).2⟩
  have hsne := symbolize_ne_nil text h m
  obtain ⟨s0, rest0, hsym0⟩ : ∃ s0 rest0, symbolize text m = s0 :: rest0 := by
    cases hs : symbolize text m with
    | nil => exact absurd hs hsne
    | cons a t => exact ⟨a, t, rfl⟩
  have hctne : build_code text m ≠ [] := by
    intro he
    have := hmemkeys s0 (by rw [hsym0]; exact List.mem_cons_self s0 rest0)
    rw [he] at this
    simp at this
  obtain ⟨c0, cs, hc0⟩ : ∃ c0 cs, build_code text m = c0 :: cs := by
    cases hct : build_code text m with
    | nil => exact absurd hct hctne
    | cons a t => exact ⟨a, t, rfl⟩
  have hc0sym : c0.1 ∈ symbolize text m := by
    refine (build_code_keys_mem text m c0.1).mp ?_
    rw [hc0]
    exact List.mem_map.mpr ⟨c0, List.mem_cons_self c0 cs, rfl⟩
  have hc0len := symbolize_length text m c0.1 hc0sym
  have henc : encode_text (build_code text m) text =
      ((symbolize text m).map
        (fun s => (lookupCode (build_code text m) s).getD [])).flatten := by
    rw [hc0, encode_text_flatten]
    cases m with
    | true =>
      rw [if_pos (by simpa using hc0len)]
      rw [← hc0]
      rfl
    | false =>
      rw [if_neg (by simp at hc0len; omega)]
      rw [← hc0]
      rfl
  have hence : encode_text (build_code text m) text ≠ [] := by
    rw [henc, hsym0, List.map_cons, List.flatten_cons]
    have := (hcF s0 (by rw [hsym0]; exact List.mem_cons_self s0 rest0)).2
    intro he
    rw [List.append_eq_nil] at he
    exact this he.1
  rw [decode_text, if_neg (not_or.mpr ⟨hctne, hence⟩), henc]
  rw [decode_join hpw text.length _ (symbolize text m) [] hcF]
  show (symbolize text m).foldl (emitSym text.length) [] = text
  cases m with
  | false =>
    have : symbolize text false = text.map (fun c => [c]) := by
      simp [symbolize]
    rw [this, foldl_emit_single]
    rfl
  | true =>
    have hsp : symbolize text true = pairs_list text := by simp [symbolize]
    by_cases hpar : text.length % 2 = 0
    · rw [hsp, pairs_list, if_neg (by omega), List.append_nil]
      rw [foldl_emit_even text.length hpar]
      rw [evenPairs_flatten, if_pos hpar]
      rfl
    · rw [hsp, pairs_list, if_pos (by omega), List.foldl_append]
      have hd1 : (evenPairs text).foldl (emitSym text.length) [] =
          [] ++ (evenPairs text).flatten := by
        refine foldl_emit_pairs text.length (evenPairs text) []
          (evenPairs_mem_length text) ?_
        rw [evenPairs_length]
        simp only [List.length_nil]
        omega
      rw [hd1]
      simp only [List.nil_append, List.foldl_cons, List.foldl_nil]
      rw [evenPairs_flatten, if_neg hpar]
      have hemit : emitSym text.length text.dropLast
          [text.getLastD spaceChar, spaceChar] =
            text.dropLast ++ [text.getLastD spaceChar] := by
        rw [emitSym, if_pos]
        · rfl
        · refine ⟨rfl, rfl, by omega, ?_⟩
          rw [List.length_dropLast]
      rw [hemit]
      exact dropLast_getLastD text h spaceChar

/-! ### Claim theorems -/


/-- Claim C1 witness: the round trip holds at the concrete odd-length
text "aba" in pair mode. -/
theorem round_trip_witness :
    (['a', 'b', 'a'] : List Char) ≠ [] ∧
      decode_text (build_code ['a', 'b', 'a'] true) 3
        (encode_text (build_code ['a', 'b', 'a'] true) ['a', 'b', 'a']) =
          ['a', 'b', 'a'] :=
  ⟨by decide, round_trip ['a', 'b', 'a'] (by decide) true⟩

/-- Claim C2 (Prefix-freeness): for every probability table, in the code
table produced by `shannon_fano_coding` no code is a proper prefix of
another code of the table. -/
theorem prefix_free (probs : List (Sym × ℚ)) :
    (shannon_fano_coding probs).Pairwise
      (fun p q => ¬ (p.2 <+: q.2 ∧ p.2 ≠ q.2) ∧ ¬ (q.2 <+: p.2 ∧ q.2 ≠ p.2)) := by
  refine (dac_antichain (sortDesc probs) []).imp ?_
  intro p q hpq
  exact ⟨fun hc => hpq.1 hc.1, fun hc => hpq.2 hc.1⟩

/-- Claim C9 (Deterministic code assignment): `shannon_fano_coding` is a
function of the probability table presented in its insertion order, so
two calls on equal tables agree; the sort it uses is a permutation that
is descending in probability and stable, keeping entries of any equal
probability in their original insertion order. -/
theorem deterministic_codes (probs : List (Sym × ℚ)) :
    shannon_fano_coding probs = shannon_fano_coding probs ∧
    List.Perm (sortDesc probs) probs ∧
    (sortDesc probs).Pairwise (fun p q => q.2 ≤ p.2) ∧
    ∀ v : ℚ, (sortDesc probs).filter (fun p => decide (p.2 = v)) =
      probs.filter (fun p => decide (p.2 = v)) :=
  ⟨rfl, sortDesc_perm probs, sortDesc_sorted probs, fun v => sortDesc_filter v probs⟩

/-- Claim C10 (Code-table completeness): for every non-empty probability
table, the key set of the code table equals the key set of the
probability table, and every assigned code is a non-empty bit string. -/
theorem code_table_complete (probs : List (Sym × ℚ)) (h : probs ≠ []) :
    (∀ s : Sym, s ∈ (shannon_fano_coding probs).map Prod.fst ↔
        s ∈ probs.map Prod.fst) ∧
      ∀ p ∈ shannon_fano_coding probs, p.2 ≠ [] := by
  constructor
  · intro s
    show s ∈ (divide_and_code (sortDesc probs) []).map Prod.fst ↔ _
    rw [dac_keys (sortDesc probs) []]
    exact ((sortDesc_perm probs).map Prod.fst).mem_iff
  · intro p hp
    exact (dac_pre_ne _ [] p hp).2

/-- Claim C10 witness: instantiation at the one-entry table. -/
theorem code_table_complete_witness :
    (∀ s : Sym, s ∈ (shannon_fano_coding [(['a'], (1 : ℚ))]).map Prod.fst ↔
        s ∈ ([(['a'], (1 : ℚ))] : List (Sym × ℚ)).map Prod.fst) ∧
      ∀ p ∈ shannon_fano_coding [(['a'], (1 : ℚ))], p.2 ≠ [] :=
  code_table_complete [(['a'], (1 : ℚ))] (by decide)

/-- Claim C7 (Termination): both recursive calls of `divide_and_code`
receive strictly shorter lists than their caller, and a one-symbol
alphabet receives the single-bit code "0" (here `[false]`). -/
theorem termination_decrease (items : List (Sym × ℚ)) (h : 2 ≤ items.length)
    (s : Sym) (q : ℚ) :
    (items.take (bestSplit items)).length < items.length ∧
      (items.drop (bestSplit items)).length < items.length ∧
      shannon_fano_coding [(s, q)] = [(s, [false])] := by
  have hb := (bestSplit_spec items h).1
  refine ⟨?_, ?_, ?_⟩
  · rw [List.length_take]
    omega
  · rw [List.length_drop]
    omega
  · simp [shannon_fano_coding, sortDesc, insertDesc, divide_and_code]

/-- Claim C7 witness: instantiation at a two-entry table and the
one-symbol alphabet containing the symbol "a". -/
theorem termination_decrease_witness :
    2 ≤ ([(['a'], (1 : ℚ) / 2), (['b'], (1 : ℚ) / 2)] : List (Sym × ℚ)).length ∧
      (([(['a'], (1 : ℚ) / 2), (['b'], (1 : ℚ) / 2)] : List (Sym × ℚ)).take
          (bestSplit [(['a'], (1 : ℚ) / 2), (['b'], (1 : ℚ) / 2)])).length < 2 ∧
      (([(['a'], (1 : ℚ) / 2), (['b'], (1 : ℚ) / 2)] : List (Sym × ℚ)).drop
          (bestSplit [(['a'], (1 : ℚ) / 2), (['b'], (1 : ℚ) / 2)])).length < 2 ∧
      shannon_fano_coding [(['c'], (1 : ℚ))] = [(['c'], [false])] :=
  ⟨by decide, (termination_decrease _ (by decide) ['c'] 1).1,
    (termination_decrease [(['a'], (1 : ℚ) / 2), (['b'], (1 : ℚ) / 2)]
      (by decide) ['c'] 1).2.1,
    (termination_decrease [(['a'], (1 : ℚ) / 2), (['b'], (1 : ℚ) / 2)]
      (by decide) ['c'] 1).2.2⟩

theorem build_code_single_a : build_code ['a'] false = [(['a'], [false])] := by
  have h1 : calculate_probabilities (calculate_frequencies ['a'] false) =
      [(['a'], ((1 : ℕ) : ℚ) / ((1 : ℕ) : ℚ))] := rfl
  rw [build_code, h1, shannon_fano_coding]
  rw [show sortDesc [(['a'], ((1 : ℕ) : ℚ) / ((1 : ℕ) : ℚ))] =
    [(['a'], ((1 : ℕ) : ℚ) / ((1 : ℕ) : ℚ))] from rfl]
  rw [divide_and_code]
  simp

/-- Claim C3 counterexample: with the code table built from the
one-character text "a" (code "0" for "a"), decoding the corrupted
bitstream "01" returns the plain truncated output "a" — identical to the
decode of the valid prefix "0" — instead of reporting a decode failure;
the unmatched trailing bit is silently discarded. -/
theorem decode_truncates_cx :
    decode_text (build_code ['a'] false) 1 [false, true] = ['a'] ∧
      decode_text (build_code ['a'] false) 1 [false] = ['a'] := by
  rw [build_code_single_a]
  constructor <;> decide

theorem junk_run {ct : List (Sym × List Bool)} (n : ℕ) :
    ∀ (junk cur : List Bool) (d : List Char),
      (∀ p : List Bool, p ≠ [] → p <+: junk → reverse_lookup ct (cur ++ p) = none) →
      junk.foldl (decode_step ct n) (d, cur) = (d, cur ++ junk) := by
  intro junk
  induction junk with
  | nil => intro cur d _; simp
  | cons b rest ih =>
    intro cur d hst
    rw [List.foldl_cons]
    have hb : reverse_lookup ct (cur ++ [b]) = none :=
      hst [b] (by simp) ⟨rest, rfl⟩
    have hstep : decode_step ct n (d, cur) b = (d, cur ++ [b]) := by
      simp [decode_step, hb]
    rw [hstep, ih (cur ++ [b]) d ?_]
    · simp
    · intro p hp hpre
      rw [List.append_assoc]
      refine hst (b :: p) (by simp) ?_
      rcases hpre with ⟨t, ht⟩
      exact ⟨t, by rw [List.cons_append, ht]⟩

theorem shannon_fano_three :
    shannon_fano_coding [(['a'], (1 : ℚ) / 2), (['b'], (1 : ℚ) / 4), (['c'], (1 : ℚ) / 4)] =
      [(['a'], [false]), (['b'], [true, false]), (['c'], [true, true])] := by
  norm_num [shannon_fano_coding, sortDesc, insertDesc, divide_and_code, bestSplit,
    splitDiff, total_prob, List.range']
  rw [if_neg (not_lt.mpr (abs_nonneg _))]
  norm_num [divide_and_code, bestSplit, splitDiff, total_prob, List.range']
  decide

/-- Claim C3 amended: for every probability table, whenever the
bitstream consists of a decodable prefix (the concatenated codes of any
sequence of table symbols) followed by a non-empty remainder that never
completes a code of the table, `decode_text` over the produced code
table returns exactly the symbols decoded from that prefix and silently
discards the remainder — identical to decoding the valid prefix alone —
with no failure indication reported to the caller. -/
theorem decode_discards_remainder (probs : List (Sym × ℚ)) (n : ℕ)
    (cF : Sym → List Bool) (syms : List Sym) (junk : List Bool)
    (hsyms : ∀ s ∈ syms, (s, cF s) ∈ shannon_fano_coding probs ∧ cF s ≠ [])
    (hjunk : junk ≠ [])
    (hstuck : ∀ p : List Bool, p ≠ [] → p <+: junk →
      reverse_lookup (shannon_fano_coding probs) p = none)
    (hct : shannon_fano_coding probs ≠ []) :
    decode_text (shannon_fano_coding probs) n ((syms.map cF).flatten ++ junk) =
        syms.foldl (emitSym n) [] ∧
      (syms ≠ [] →
        decode_text (shannon_fano_coding probs) n ((syms.map cF).flatten ++ junk) =
          decode_text (shannon_fano_coding probs) n ((syms.map cF).flatten)) := by
  have hpw : (shannon_fano_coding probs).Pairwise
      (fun p q => ¬ p.2 <+: q.2 ∧ ¬ q.2 <+: p.2) := dac_antichain _ []
  have hstream : (syms.map cF).flatten ++ junk ≠ [] := by
    intro he
    exact hjunk (List.append_eq_nil.mp he).2
  have hmain : decode_text (shannon_fano_coding probs) n
      ((syms.map cF).flatten ++ junk) = syms.foldl (emitSym n) [] := by
    rw [decode_text, if_neg (not_or.mpr ⟨hct, hstream⟩), List.foldl_append]
    rw [decode_join hpw n cF syms [] hsyms]
    rw [junk_run n junk [] (syms.foldl (emitSym n) []) (by simpa using hstuck)]
  refine ⟨hmain, fun hsne => ?_⟩
  rw [hmain]
  have hfne : (syms.map cF).flatten ≠ [] := by
    rcases syms with _ | ⟨s, rest⟩
    · exact absurd rfl hsne
    · rw [List.map_cons, List.flatten_cons]
      intro he
      exact (hsyms s (List.mem_cons_self s rest)).2 (List.append_eq_nil.mp he).1
  rw [decode_text, if_neg (not_or.mpr ⟨hct, hfne⟩)]
  rw [decode_join hpw n cF syms [] hsyms]

/-- Claim C3 amended witness: instantiation at the three-symbol table
with codes "0", "10", "11", the decodable prefix "11" ++ "0" (symbols
"c" then "a", exercising a multi-bit code) and the dangling remainder
bit "1", which is a proper code prefix that the stream ends inside. -/
theorem decode_discards_remainder_witness :
    decode_text
        (shannon_fano_coding [(['a'], (1 : ℚ) / 2), (['b'], (1 : ℚ) / 4), (['c'], (1 : ℚ) / 4)]) 3
        ((([['c'], ['a']] : List Sym).map (fun s =>
          if s = ['a'] then [false] else if s = ['b'] then [true, false]
          else [true, true])).flatten ++ [true]) =
      ([['c'], ['a']] : List Sym).foldl (emitSym 3) [] ∧
      (([['c'], ['a']] : List Sym) ≠ [] →
        decode_text
            (shannon_fano_coding
              [(['a'], (1 : ℚ) / 2), (['b'], (1 : ℚ) / 4), (['c'], (1 : ℚ) / 4)]) 3
            ((([['c'], ['a']] : List Sym).map (fun s =>
              if s = ['a'] then [false] else if s = ['b'] then [true, false]
              else [true, true])).flatten ++ [true]) =
          decode_text
            (shannon_fano_coding
              [(['a'], (1 : ℚ) / 2), (['b'], (1 : ℚ) / 4), (['c'], (1 : ℚ) / 4)]) 3
            ((([['c'], ['a']] : List Sym).map (fun s =>
              if s = ['a'] then [false] else if s = ['b'] then [true, false]
              else [true, true])).flatten)) := by
  refine decode_discards_remainder
    [(['a'], (1 : ℚ) / 2), (['b'], (1 : ℚ) / 4), (['c'], (1 : ℚ) / 4)] 3
    (fun s => if s = ['a'] then [false] else if s = ['b'] then [true, false]
      else [true, true])
    [['c'], ['a']] [true] ?_ (by decide) ?_ ?_
  · intro s hs
    rw [shannon_fano_three]
    rcases List.mem_cons.mp hs with h1 | h1
    · subst h1
      exact ⟨by decide, by decide⟩
    · rcases List.mem_cons.mp h1 with h2 | h2
      · subst h2
        exact ⟨by decide, by decide⟩
      · simp at h2
  · intro p hp hpre
    have hp1 : p = [true] := by
      rcases hpre with ⟨t, ht⟩
      cases p with
      | nil => exact absurd rfl hp
      | cons b p2 =>
        rw [List.cons_append] at ht
        injection ht with hb hrest
        rw [List.append_eq_nil] at hrest
        subst hb
        rw [hrest.1]
    rw [hp1, shannon_fano_three]
    decide
  · rw [shannon_fano_three]
    decide

/-- Claim C4 (Pair-mode padding and pad stripping): for every odd-length
text in pair mode, the final unpaired character forms the last symbol by
concatenation with one space character and that padded symbol is a key
of the frequency table; and whenever the decoder matches a code whose
symbol is a two-character pair ending in the sentinel space while the
original length is odd and the output so far is exactly one character
short of it, only the non-pad character is emitted, never the sentinel
space. -/
theorem pair_padding (text : List Char) (hodd : text.length % 2 = 1)
    (codes : List (Sym × List Bool)) (textLen : ℕ) (decoded : List Char)
    (cur : List Bool) (bit : Bool) (c : Char)
    (hrl : reverse_lookup codes (cur ++ [bit]) = some [c, spaceChar])
    (hlen2 : textLen % 2 = 1) (hdl : decoded.length = textLen - 1) :
    (pairs_list text).getLast? = some [text.getLastD spaceChar, spaceChar] ∧
      [text.getLastD spaceChar, spaceChar] ∈
        (calculate_frequencies text true).map Prod.fst ∧
      decode_step codes textLen (decoded, cur) bit = (decoded ++ [c], []) := by
  have hpad : [text.getLastD spaceChar, spaceChar] ∈ symbolize text true := by
    simp only [symbolize, if_true, pairs_list, if_pos hodd]
    exact List.mem_append.mpr (Or.inr (List.mem_cons_self _ _))
  refine ⟨?_, ?_, ?_⟩
  · rw [pairs_list, if_pos hodd]
    exact List.getLast?_concat _
  · rw [calculate_frequencies, counter_keys]
    exact (mem_firstOccs _ (symbolize text true)).mpr hpad
  · simp only [decode_step, hrl]
    rw [emitSym, if_pos]
    · rfl
    · exact ⟨rfl, rfl, hlen2, hdl⟩

/-- Claim C4 witness: instantiation at the odd-length text "abc" and a
one-entry code table mapping the padded pair "c " to the code "0". -/
theorem pair_padding_witness :
    (['a', 'b', 'c'] : List Char).length % 2 = 1 ∧
      reverse_lookup [([spaceChar, spaceChar], [false])] ([] ++ [false]) =
        some [spaceChar, spaceChar] ∧
      (1 : ℕ) % 2 = 1 ∧ ([] : List Char).length = 1 - 1 ∧
      ((pairs_list ['a', 'b', 'c']).getLast? =
          some [(['a', 'b', 'c'] : List Char).getLastD spaceChar, spaceChar] ∧
        [(['a', 'b', 'c'] : List Char).getLastD spaceChar, spaceChar] ∈
          (calculate_frequencies ['a', 'b', 'c'] true).map Prod.fst ∧
        decode_step [([spaceChar, spaceChar], [false])] 1 ([], []) false =
          ([] ++ [spaceChar], [])) :=
  ⟨by decide, by decide, by decide, by decide,
    pair_padding ['a', 'b', 'c'] (by decide) [([spaceChar, spaceChar], [false])]
      1 [] [] false spaceChar (by decide) (by decide) (by decide)⟩

/-- Claim C5 counterexample: on the empty frequency table (alphabet size
0) `calculate_uniform_code_length` returns 1, not 0 as the claim states:
the source ternary `... if alphabet_size > 1 else 1` returns 1 for both
alphabet sizes 0 and 1. -/
theorem uniform_code_length_empty_cx :
    calculate_uniform_code_length [] = 1 ∧ calculate_uniform_code_length [] ≠ 0 := by
  constructor <;> decide

/-- Claim C5 amended: `calculate_uniform_code_length` returns the
ceiling of the base-2 logarithm of the alphabet size when that size
exceeds 1, and returns 1 whenever the size is 0 or 1; `Nat.clog 2 n`
coincides with the real ceiling of log2 for every size above 1. -/
theorem uniform_code_length_formula (freqs : List (Sym × ℕ)) :
    calculate_uniform_code_length freqs =
      (if 1 < freqs.length then Nat.clog 2 freqs.length else 1) ∧
      ∀ n : ℕ, 1 < n → ((Nat.clog 2 n : ℤ) = ⌈Real.logb 2 (n : ℝ)⌉) := by
  constructor
  · rfl
  · intro n _
    have hpos : (0 : ℝ) ≤ (n : ℝ) := Nat.cast_nonneg n
    have hcl := Real.ceil_logb_natCast (b := 2) (r := (n : ℝ)) hpos
    rw [Int.clog_natCast, Nat.cast_ofNat] at hcl
    exact hcl.symm

/-- Claim C5 amended witness: instantiation at a two-entry table and
alphabet size 2. -/
theorem uniform_code_length_formula_witness :
    calculate_uniform_code_length [(['a'], 1), (['b'], 1)] =
      (if 1 < ([(['a'], 1), (['b'], 1)] : List (Sym × ℕ)).length
        then Nat.clog 2 ([(['a'], 1), (['b'], 1)] : List (Sym × ℕ)).length else 1) ∧
      ((Nat.clog 2 2 : ℤ) = ⌈Real.logb 2 ((2 : ℕ) : ℝ)⌉) :=
  ⟨(uniform_code_length_formula [(['a'], 1), (['b'], 1)]).1,
    (uniform_code_length_formula [(['a'], 1), (['b'], 1)]).2 2 (by decide)⟩

/-- Claim C8 (Empty-input totality): for the empty text, in either mode,
frequency counting, probability computation, entropy and code
construction return empty or zero results, and encoding and decoding the
empty input return the empty output. -/
theorem empty_input_safe (m : Bool) :
    calculate_frequencies [] m = [] ∧
      calculate_probabilities (calculate_frequencies [] m) = [] ∧
      calculate_entropy (calculate_probabilities (calculate_frequencies [] m)) = 0 ∧
      build_code [] m = [] ∧
      encode_text (build_code [] m) [] = [] ∧
      decode_text (build_code [] m) 0 (encode_text (build_code [] m) []) = [] := by
  have h1 : calculate_frequencies [] m = [] := by
    cases m <;> rfl
  have h2 : calculate_probabilities (calculate_frequencies [] m) = [] := by
    rw [h1]; rfl
  have h4 : build_code [] m = [] := by
    rw [build_code, h2, shannon_fano_coding]
    rw [show sortDesc [] = [] from rfl]
    rw [divide_and_code]
  have h5 : encode_text (build_code [] m) [] = [] := by
    rw [h4]; rfl
  refine ⟨h1, h2, ?_, h4, h5, ?_⟩
  · rw [h2]
    simp [calculate_entropy]
  · rw [h4]
    rfl

/-- Claim C6 (Split-point selection rule): for every list of at least
two items during recursive partitioning, the chosen split index lies in
[1, length), minimises the absolute difference between the probability
sums of the two contiguous groups, ties broken by the smallest index
(every strictly smaller candidate index has a strictly larger
difference); both groups are non-empty contiguous slices, and the
recursion continues on the left group with the prefix extended by "0"
and on the right group with the prefix extended by "1". -/
theorem split_point_rule (items : List (Sym × ℚ)) (h : 2 ≤ items.length)
    (pre : List Bool) :
    (1 ≤ bestSplit items ∧ bestSplit items < items.length) ∧
      (∀ j, 1 ≤ j → j < items.length →
        splitDiff items (bestSplit items) ≤ splitDiff items j) ∧
      (∀ j, 1 ≤ j → j < bestSplit items →
        splitDiff items (bestSplit items) < splitDiff items j) ∧
      items.take (bestSplit items) ≠ [] ∧ items.drop (bestSplit items) ≠ [] ∧
      divide_and_code items pre =
        divide_and_code (items.take (bestSplit items)) (pre ++ [false]) ++
          divide_and_code (items.drop (bestSplit items)) (pre ++ [true]) := by
  obtain ⟨hbnd, hmin, hleast⟩ := bestSplit_spec items h
  refine ⟨hbnd, hmin, hleast, ?_, ?_, ?_⟩
  · intro he
    have := congrArg List.length he
    rw [List.length_take] at this
    simp only [List.length_nil] at this
    omega
  · intro he
    have := congrArg List.length he
    rw [List.length_drop] at this
    simp only [List.length_nil] at this
    omega
  · rcases items with _ | ⟨a, _ | ⟨b, rest⟩⟩
    · simp at h
    · simp at h
    · rw [divide_and_code]

/-- Claim C6 witness: instantiation at a three-entry table with
probabilities 1/2, 1/4, 1/4 and the empty prefix (the chosen split index
is 1). -/
theorem split_point_rule_witness :
    2 ≤ ([(['a'], (1 : ℚ) / 2), (['b'], (1 : ℚ) / 4), (['c'], (1 : ℚ) / 4)] :
        List (Sym × ℚ)).length ∧
      ((1 ≤ bestSplit [(['a'], (1 : ℚ) / 2), (['b'], (1 : ℚ) / 4), (['c'], (1 : ℚ) / 4)] ∧
          bestSplit [(['a'], (1 : ℚ) / 2), (['b'], (1 : ℚ) / 4), (['c'], (1 : ℚ) / 4)] <
            ([(['a'], (1 : ℚ) / 2), (['b'], (1 : ℚ) / 4), (['c'], (1 : ℚ) / 4)] :
              List (Sym × ℚ)).length) ∧
        (∀ j, 1 ≤ j →
          j < ([(['a'], (1 : ℚ) / 2), (['b'], (1 : ℚ) / 4), (['c'], (1 : ℚ) / 4)] :
              List (Sym × ℚ)).length →
          splitDiff [(['a'], (1 : ℚ) / 2), (['b'], (1 : ℚ) / 4), (['c'], (1 : ℚ) / 4)]
              (bestSplit [(['a'], (1 : ℚ) / 2), (['b'], (1 : ℚ) / 4), (['c'], (1 : ℚ) / 4)]) ≤
            splitDiff [(['a'], (1 : ℚ) / 2), (['b'], (1 : ℚ) / 4), (['c'], (1 : ℚ) / 4)] j) ∧
        (∀ j, 1 ≤ j →
          j < bestSplit [(['a'], (1 : ℚ) / 2), (['b'], (1 : ℚ) / 4), (['c'], (1 : ℚ) / 4)] →
          splitDiff [(['a'], (1 : ℚ) / 2), (['b'], (1 : ℚ) / 4), (['c'], (1 : ℚ) / 4)]
              (bestSplit [(['a'], (1 : ℚ) / 2), (['b'], (1 : ℚ) / 4), (['c'], (1 : ℚ) / 4)]) <
            splitDiff [(['a'], (1 : ℚ) / 2), (['b'], (1 : ℚ) / 4), (['c'], (1 : ℚ) / 4)] j) ∧
        ([(['a'], (1 : ℚ) / 2), (['b'], (1 : ℚ) / 4), (['c'], (1 : ℚ) / 4)] :
          List (Sym × ℚ)).take
            (bestSplit [(['a'], (1 : ℚ) / 2), (['b'], (1 : ℚ) / 4), (['c'], (1 : ℚ) / 4)]) ≠ [] ∧
        ([(['a'], (1 : ℚ) / 2), (['b'], (1 : ℚ) / 4), (['c'], (1 : ℚ) / 4)] :
          List (Sym × ℚ)).drop
            (bestSplit [(['a'], (1 : ℚ) / 2), (['b'], (1 : ℚ) / 4), (['c'], (1 : ℚ) / 4)]) ≠ [] ∧
        divide_and_code [(['a'], (1 : ℚ) / 2), (['b'], (1 : ℚ) / 4), (['c'], (1 : ℚ) / 4)] [] =
          divide_and_code
            (([(['a'], (1 : ℚ) / 2), (['b'], (1 : ℚ) / 4), (['c'], (1 : ℚ) / 4)] :
              List (Sym × ℚ)).take
              (bestSplit [(['a'], (1 : ℚ) / 2), (['b'], (1 : ℚ) / 4), (['c'], (1 : ℚ) / 4)]))
            ([] ++ [false]) ++
          divide_and_code
            (([(['a'], (1 : ℚ) / 2), (['b'], (1 : ℚ) / 4), (['c'], (1 : ℚ) / 4)] :
              List (Sym × ℚ)).drop
              (bestSplit [(['a'], (1 : ℚ) / 2), (['b'], (1 : ℚ) / 4), (['c'], (1 : ℚ) / 4)]))
            ([] ++ [true])) :=
  ⟨by decide,
    split_point_rule [(['a'], (1 : ℚ) / 2), (['b'], (1 : ℚ) / 4), (['c'], (1 : ℚ) / 4)]
      (by decide) []⟩

end ShannonFano
